import Mathlib

/-!
Verification development for the DST map loader (rawmap.py).

The whole pipeline is embedded shallowly over `List Char` (Python `str`
values are sequences of characters; no Lean `String` machinery is used so
that every definition reduces in the kernel):

* `raw_map_to_list` embeds `Loader._raw_map_to_list` (the preprocessor);
* `change_data_type` embeds the inner `change_data_type` of `_map_reader`;
* `get_next_line` embeds the inner `get_next_line`;
* `run` / `map_reader` embed the recursive `_map_reader` with an explicit
  fuel argument (the Python recursion has no syntactic bound); every
  recursive call and every loop iteration spends one unit of fuel, and
  running out of fuel is a distinguishable error that never occurs on the
  concrete inputs considered here.

Python `int(...)` / `float(...)` are modelled on their plain decimal
grammars (optional sign, digits, and for float a mandatory decimal point
with digit fragments around it, everything surrounded by optional
whitespace).  Exponent notation, underscores in numeric literals and the
inf/nan spellings accepted by Python are outside the model; no claim
depends on them.  Python floats themselves are modelled as exact decimals
(`Dec`), i.e. an integer mantissa together with a decimal exponent,
normalised so that equal decimal literals are equal values.

Console prints of `_map_reader` are modelled as an accumulated list of
`Diag` values, Python exceptions (`ValueError` from `int`/`float`,
`IndexError` from running past the line list) as an `Except Err` result.
The reader additionally returns the trace of indices it read from the
line list, which lets cursor-monotonicity claims be stated directly.
-/

namespace DST

/-- One character is whitespace for the purposes of Python `str.strip`
(the characters that can actually occur here are spaces and the tabs and
newlines inserted by the preprocessor). -/
def isWS (c : Char) : Bool :=
  c = ' ' || c = '\t' || c = '\n' || c = '\r'

/-- Boolean membership of a character in a line, embedding the Python
test `ch in line`. -/
def containsCh (l : List Char) (c : Char) : Bool :=
  l.any (fun x => x = c)

/-- Python `str.strip()`: drop leading and trailing whitespace. -/
def strip (l : List Char) : List Char :=
  ((l.dropWhile isWS).reverse.dropWhile isWS).reverse

/-- Python `str.rstrip(",")`: drop trailing comma characters. -/
def rstripCommas (l : List Char) : List Char :=
  (l.reverse.dropWhile (fun x => x = ',')).reverse

/-- Composition applied by `get_next_line` to each raw line before the
reader interprets it: strip whitespace, then strip trailing commas. -/
def procLine (raw : List Char) : List Char :=
  rstripCommas (strip raw)

/-- Python `line.split(sep)[0]` and `sep.join(parts[1:])`: the fragment
before the first occurrence of `sep` and the fragment after it (the
second component is `[]` when `sep` does not occur). -/
def splitFirst (sep : Char) : List Char → List Char × List Char
  | [] => ([], [])
  | c :: rest =>
    if c = sep then ([], rest)
    else
      let p := splitFirst sep rest
      (c :: p.1, p.2)

/-- Python `str.split('\n')` on a character list. -/
def splitNl : List Char → List (List Char)
  | [] => [[]]
  | c :: rest =>
    match splitNl rest with
    | [] => [[]]
    | s :: ss =>
      if c = '\n' then [] :: s :: ss
      else (c :: s) :: ss

/-- Numeric value of a (possibly empty) list of decimal digit characters,
most significant first. -/
def natVal (l : List Char) : ℕ :=
  l.foldl (fun a c => a * 10 + (c.toNat - 48)) 0

/-- Decimal-digit parse of a nonempty all-digit character list. -/
def parseNatDigits (l : List Char) : Option ℕ :=
  if l = [] then none
  else if l.all Char.isDigit then some (natVal l)
  else none

/-- Python `int(token)` on the plain decimal grammar: optional
whitespace, an optional sign, then at least one digit. -/
def pyInt (l : List Char) : Option ℤ :=
  match strip l with
  | [] => none
  | c :: rest =>
    if c = '-' then (parseNatDigits rest).map (fun n => -(Int.ofNat n))
    else if c = '+' then (parseNatDigits rest).map (fun n => Int.ofNat n)
    else (parseNatDigits (c :: rest)).map (fun n => Int.ofNat n)

/-- Exact decimal model of a Python float: the value `m / 10 ^ e`.
Values are normalised (see `Dec.normalize`) so that numerically equal
decimal literals give equal `Dec` values. -/
structure Dec where
  m : ℤ
  e : ℕ
deriving DecidableEq, Repr

/-- Strip factors of ten shared between mantissa and exponent. -/
def normAux (m : ℤ) : ℕ → ℤ × ℕ
  | 0 => (m, 0)
  | e + 1 => if m % 10 = 0 then normAux (m / 10) e else (m, e + 1)

/-- Normalised decimal with value `m / 10 ^ e`. -/
def Dec.normalize (m : ℤ) (e : ℕ) : Dec :=
  ⟨(normAux m e).1, (normAux m e).2⟩

/-- Sign handling of the float grammar: an optional leading sign. -/
def pyFloatSign (t : List Char) : ℤ × List Char :=
  match t with
  | [] => ((1 : ℤ), ([] : List Char))
  | c :: rest =>
    if c = '-' then ((-1 : ℤ), rest)
    else if c = '+' then ((1 : ℤ), rest)
    else ((1 : ℤ), c :: rest)

/-- Unsigned part of the float grammar: an optional integer digit run, a
mandatory decimal point, an optional fractional digit run, with at least
one digit overall.  The value is assembled as an exact decimal. -/
def pyFloatBody (sg : ℤ) (u : List Char) : Option Dec :=
  match u.dropWhile Char.isDigit with
  | [] => none
  | c :: fp =>
    if c = '.' then
      if fp.all Char.isDigit &&
          (!(u.takeWhile Char.isDigit).isEmpty || !fp.isEmpty) then
        some (Dec.normalize
          (sg * ((natVal (u.takeWhile Char.isDigit) : ℤ) *
              (10 : ℤ) ^ fp.length + (natVal fp : ℤ)))
          fp.length)
      else none
    else none

/-- Python `float(token)` on the plain decimal grammar: optional
whitespace, an optional sign, an optional integer digit run, a mandatory
decimal point, an optional fractional digit run, with at least one digit
overall.  Exponent notation and inf/nan are outside the model. -/
def pyFloat (l : List Char) : Option Dec :=
  pyFloatBody (pyFloatSign (strip l)).1 (pyFloatSign (strip l)).2

/-- The value tree built by the reader: the Python runtime values that
`_map_reader` produces.  The empty/absent sentinel of the dialect is the
Python empty string, i.e. `pystr []`. -/
inductive Value where
  /-- A Python `str` (covers both the empty sentinel and quoted text). -/
  | pystr (s : List Char)
  /-- A Python `bool`. -/
  | pybool (b : Bool)
  /-- A Python `int`. -/
  | pyint (n : ℤ)
  /-- A Python `float`, modelled as an exact decimal. -/
  | pyfloat (d : Dec)
  /-- A Python `list` of values. -/
  | seq (xs : List Value)
  /-- A Python `dict`, as its insertion-ordered key/value pairs. -/
  | map (kvs : List (List Char × Value))

/-- Python exceptions that abort the parse. -/
inductive Err where
  /-- `IndexError`: the cursor ran past the end of the line list. -/
  | indexError
  /-- `ValueError` from `int(...)` or `float(...)`, carrying the token. -/
  | valueError (token : List Char)
  /-- Fuel exhaustion of the embedding (never hit on the inputs used). -/
  | fuel
deriving DecidableEq, Repr

/-- Console diagnostics printed by `_map_reader`. -/
inductive Diag where
  /-- The print "Unexpected end of file" of the sequence branch. -/
  | unexpectedEOF
  /-- The print naming an unhandled mapping line and the value of
  `self.counter` at the moment of the print. -/
  | unhandledLine (line : List Char) (pos : ℕ)
deriving DecidableEq, Repr

/-- Literal list of the characters of the Python token `true`. -/
def trueTok : List Char := ['t', 'r', 'u', 'e']

/-- Literal list of the characters of the Python token `false`. -/
def falseTok : List Char := ['f', 'a', 'l', 's', 'e']

/-- Embedding of the inner function `change_data_type` of
`_map_reader`: empty token, the two boolean literals, quoted text kept
verbatim, then float, then int, in that order. -/
def change_data_type (l : List Char) : Except Err Value :=
  if l = [] then .ok (.pystr [])
  else if l = trueTok then .ok (.pybool true)
  else if l = falseTok then .ok (.pybool false)
  else if containsCh l '"' then .ok (.pystr l)
  else if containsCh l '.' then
    match pyFloat l with
    | some d => .ok (.pyfloat d)
    | none => .error (.valueError l)
  else
    match pyInt l with
    | some n => .ok (.pyint n)
    | none => .error (.valueError l)

/-- State of the preprocessing scan of `_raw_map_to_list`: the emitted
characters, the current brace depth (a Python `int`, so it may go
negative on malformed input) and the inside-a-quote flag. -/
structure PPState where
  out : List Char
  indents : ℤ
  in_quote : Bool
deriving Repr

/-- Indentation emitted at depth `n` (Python `"\t" * n`, which is empty
for non-positive `n`). -/
def tabs (n : ℤ) : List Char :=
  List.replicate n.toNat '\t'

/-- One step of the preprocessing scan of `_raw_map_to_list`: the
handling of a single input character, including the unconditional quote
toggle performed after the main dispatch. -/
def procChar (st : PPState) (c : Char) : PPState :=
  let st1 :=
    if c = '{' then
      { st with out := st.out ++ ['{', '\n'] ++ tabs (st.indents + 1),
                indents := st.indents + 1 }
    else if c = ',' then
      if st.in_quote then { st with out := st.out ++ [','] }
      else { st with out := st.out ++ [',', '\n'] ++ tabs st.indents }
    else if c = '}' then
      { st with out := st.out ++ ['\n'] ++ tabs (st.indents - 1) ++ ['}'],
                indents := st.indents - 1 }
    else { st with out := st.out ++ [c] }
  if c = '"' then { st1 with in_quote := !st1.in_quote } else st1

/-- Embedding of `Loader._raw_map_to_list`: scan the raw save-file line
left to right and split the emitted text on the inserted newlines. -/
def raw_map_to_list (data : List Char) : List (List Char) :=
  splitNl (data.foldl procChar ⟨[], 0, false⟩).out

/-- Embedding of the inner function `get_next_line` of `_map_reader`:
read the line at the cursor, advance the cursor by one, and return the
line stripped of whitespace and then of trailing commas.  Reading past
the end of the line list is the Python `IndexError`. -/
def get_next_line (lines : List (List Char)) (c : ℕ) :
    Except Err (List Char × ℕ) :=
  match lines[c]? with
  | some raw => .ok (procLine raw, c + 1)
  | none => .error .indexError

/-- Python dict assignment `return_data[key] = data`: overwrite in place
when the key is present, append otherwise. -/
def store (kvs : List (List Char × Value)) (k : List Char) (v : Value) :
    List (List Char × Value) :=
  if kvs.any (fun p => decide (p.1 = k)) then
    kvs.map (fun p => if p.1 = k then (k, v) else p)
  else kvs ++ [(k, v)]

/-- Control point of the embedded `_map_reader`: either the entry of the
recursive function itself, or one of its two loops together with the
loop-local state (current line, cursor, and accumulators; `nx` is the
`next_element` counter of the sequence branch, a Python `int`). -/
inductive Req where
  /-- Entry of `_map_reader` at cursor `c`. -/
  | reader (c : ℕ)
  /-- The sequence-branch `while` loop. -/
  | seqL (line : List Char) (c : ℕ) (nx : ℤ) (acc : List Value)
  /-- The mapping-branch `while` loop. -/
  | mapL (line : List Char) (c : ℕ) (acc : List (List Char × Value))

/-- Result of a reader step: the produced value, the cursor after the
step, the diagnostics printed during the step, and the trace of line
indices read from the line list during the step, in reading order. -/
abbrev Res := Except Err (Value × ℕ × List Diag × List ℕ)

/-- Embedding of `_map_reader` and its two loops, with explicit fuel
(one unit per entry and per loop iteration).  The `seqL` body mirrors
the sequence branch: bracketed-index padding for lines containing both
a brace and an equals sign, recursion for nested units, type coercion
for scalar lines, and the early return of an empty list when the line
read at the bottom of the loop is empty.  The `mapL` body mirrors the
mapping branch: split at the first equals sign, recurse when the value
fragment is exactly an open brace, coerce otherwise, and print a
diagnostic for lines without an equals sign. -/
def run (lines : List (List Char)) : ℕ → Req → Res
  | 0, _ => .error .fuel
  | fuel + 1, .reader c =>
    match get_next_line lines c with
    | .error e => .error e
    | .ok (line, c1) =>
      if containsCh line '=' then
        match run lines fuel (.mapL line c1 []) with
        | .error e => .error e
        | .ok (v, c2, ds, tr) => .ok (v, c2, ds, c :: tr)
      else
        match run lines fuel (.seqL line c1 0 []) with
        | .error e => .error e
        | .ok (v, c2, ds, tr) => .ok (v, c2, ds, c :: tr)
  | fuel + 1, .seqL line c nx acc =>
    if containsCh line '}' then .ok (.seq acc, c, [], [])
    else
      let step : Except Err (List Value × ℤ × ℕ × List Diag × List ℕ) :=
        if containsCh line '{' then
          if containsCh line '=' then
            let inner := ((strip (splitFirst '=' line).1).drop 1).dropLast
            match pyInt inner with
            | none => .error (.valueError inner)
            | some n =>
              match run lines fuel (.reader c) with
              | .error e => .error e
              | .ok (v, c2, ds, tr) =>
                .ok (acc ++ List.replicate (n - nx).toNat (Value.pystr [])
                       ++ [v], n + 1, c2, ds, tr)
          else
            match run lines fuel (.reader c) with
            | .error e => .error e
            | .ok (v, c2, ds, tr) => .ok (acc ++ [v], nx, c2, ds, tr)
        else
          match change_data_type line with
          | .error e => .error e
          | .ok v => .ok (acc ++ [v], nx + 1, c, [], [])
      match step with
      | .error e => .error e
      | .ok (acc1, nx1, c1, ds1, tr1) =>
        match get_next_line lines c1 with
        | .error e => .error e
        | .ok (line2, c2) =>
          if line2 = [] then
            .ok (.seq [], c2, ds1 ++ [.unexpectedEOF], tr1 ++ [c1])
          else
            match run lines fuel (.seqL line2 c2 nx1 acc1) with
            | .error e => .error e
            | .ok (v, cf, dsf, trf) => .ok (v, cf, ds1 ++ dsf, tr1 ++ c1 :: trf)
  | fuel + 1, .mapL line c acc =>
    if containsCh line '}' then .ok (.map acc, c, [], [])
    else
      let step : Except Err (List (List Char × Value) × ℕ × List Diag × List ℕ) :=
        if containsCh line '=' then
          let p := splitFirst '=' line
          if p.2 = ['{'] then
            match run lines fuel (.reader c) with
            | .error e => .error e
            | .ok (v, c2, ds, tr) => .ok (store acc p.1 v, c2, ds, tr)
          else
            match change_data_type p.2 with
            | .error e => .error e
            | .ok v => .ok (store acc p.1 v, c, [], [])
        else
          .ok (acc, c, [.unhandledLine line c], [])
      match step with
      | .error e => .error e
      | .ok (acc1, c1, ds1, tr1) =>
        match get_next_line lines c1 with
        | .error e => .error e
        | .ok (line2, c2) =>
          match run lines fuel (.mapL line2 c2 acc1) with
          | .error e => .error e
          | .ok (v, cf, dsf, trf) => .ok (v, cf, ds1 ++ dsf, tr1 ++ c1 :: trf)

/-- Embedding of a call to `self._map_reader()` at cursor `c`. -/
def map_reader (lines : List (List Char)) (fuel c : ℕ) : Res :=
  run lines fuel (.reader c)

/-- Embedding of `Loader.__init__` on the raw save-file text: preprocess
the text into lines and run `_map_reader` from cursor 1 (the fuel bound
is generous; two units per line cover every entry and iteration).  The
read trace is dropped here; claims about the cursor use `map_reader`
directly. -/
def load (data : List Char) : Except Err (Value × ℕ × List Diag) :=
  let lines := raw_map_to_list data
  match run lines (2 * lines.length + 2) (.reader 1) with
  | .error e => .error e
  | .ok (v, c, ds, _) => .ok (v, c, ds)

/-! Basic lemmas about the character-level helpers. -/

theorem containsCh_iff (l : List Char) (c : Char) : containsCh l c = true ↔ c ∈ l := by
  simp [containsCh, List.any_eq_true]

theorem head?_dropWhile_false {α : Type} (p : α → Bool) :
    ∀ (l : List α) (a : α), (l.dropWhile p).head? = some a → p a = false := by
  intro l
  induction l with
  | nil => intro a h; simp [List.dropWhile] at h
  | cons x t ih =>
    intro a h
    rw [List.dropWhile_cons] at h
    by_cases hx : p x = true
    · rw [if_pos hx] at h; exact ih a h
    · rw [if_neg hx] at h
      simp only [List.head?_cons, Option.some.injEq] at h
      subst h
      simpa using hx

theorem rstripCommas_getLast? (l : List Char) :
    (rstripCommas l).getLast? ≠ some ',' := by
  unfold rstripCommas
  rw [List.getLast?_reverse]
  intro h
  have := head?_dropWhile_false _ _ _ h
  simp at this

theorem get_next_line_eq (lines : List (List Char)) (raw : List Char) (c : ℕ)
    (h : lines[c]? = some raw) :
    get_next_line lines c = .ok (procLine raw, c + 1) := by
  unfold get_next_line
  rw [h]

/-! Claim C10: lines are trimmed of whitespace and trailing commas by
`get_next_line` before the reader interprets them. -/

/-- C10: every line handed to the structural reader by `get_next_line` is
the raw line first stripped of surrounding whitespace and then of all
trailing commas, the returned line never ends in a comma, and the cursor
advances by exactly one.  `get_next_line` is the only access the reader
has to the line list, so every interpreted line has this form. -/
theorem c10_line_trimming :
    ∀ (lines : List (List Char)) (c : ℕ) (s : List Char) (c2 : ℕ),
      get_next_line lines c = .ok (s, c2) →
      (∃ raw, lines[c]? = some raw ∧ s = rstripCommas (strip raw)) ∧
      s.getLast? ≠ some ',' ∧ c2 = c + 1 := by
  intro lines c s c2 h
  unfold get_next_line at h
  cases hg : lines[c]? with
  | none => rw [hg] at h; exact absurd h (by simp)
  | some raw =>
    rw [hg] at h
    simp only [Except.ok.injEq, Prod.mk.injEq] at h
    obtain ⟨h1, h2⟩ := h
    subst h1; subst h2
    exact ⟨⟨raw, rfl, rfl⟩, rstripCommas_getLast? _, rfl⟩

/-- Witness for C10 at a concrete line list. -/
theorem c10_witness :
    (∃ raw, [['a', ',']][0]? = some raw ∧ ['a'] = rstripCommas (strip raw)) ∧
    (['a'] : List Char).getLast? ≠ some ',' ∧ 1 = 0 + 1 :=
  c10_line_trimming [['a', ',']] 0 ['a'] 1 rfl

/-! Claim C7: quoted tokens are kept verbatim by coercion. -/

/-- C7: any token containing a double quote anywhere is returned by
`change_data_type` as a string, verbatim including the quote characters;
the quote check precedes the numeric checks, so such a token is never
classified as a number. -/
theorem c7_quoted_verbatim :
    ∀ l : List Char, containsCh l '"' = true →
      change_data_type l = .ok (.pystr l) := by
  intro l h
  have hm : '"' ∈ l := (containsCh_iff l '"').mp h
  have h0 : ¬ l = [] := by rintro rfl; simp at hm
  have h1 : ¬ l = trueTok := by rintro rfl; exact absurd hm (by decide)
  have h2 : ¬ l = falseTok := by rintro rfl; exact absurd hm (by decide)
  unfold change_data_type
  rw [if_neg h0, if_neg h1, if_neg h2, if_pos h]

/-- Witness for C7 on the quoted numeric-looking token. -/
theorem c7_witness :
    change_data_type ['"', '7', '"'] = .ok (.pystr ['"', '7', '"']) :=
  c7_quoted_verbatim ['"', '7', '"'] rfl

/-! Claim C8: commas inside quotes never separate entries. -/

/-- C8: the preprocessor emits a newline and indentation after a comma
exactly when the quote-state flag is false, and consequently the input
with an embedded quoted comma parses to a two-entry mapping whose first
value keeps the full quoted text. -/
theorem c8_comma_in_quotes :
    (∀ st : PPState, st.in_quote = true →
        procChar st ',' = { st with out := st.out ++ [','] }) ∧
    (∀ st : PPState, st.in_quote = false →
        procChar st ',' = { st with out := st.out ++ [',', '\n'] ++ tabs st.indents }) ∧
    load ['{', 'a', '=', '"', 'x', ',', 'y', '"', ',', 'b', '=', '2', '}'] =
      .ok (.map [(['a'], .pystr ['"', 'x', ',', 'y', '"']), (['b'], .pyint 2)],
        4, []) := by
  refine ⟨?_, ?_, rfl⟩ <;>
  · rintro ⟨out, ind, q⟩ h
    simp only at h
    subst h
    rfl

/-- Witness for C8 applying the in-quote case at a concrete state. -/
theorem c8_witness :
    procChar ⟨[], 0, true⟩ ',' = ⟨[','], 0, true⟩ :=
  c8_comma_in_quotes.1 ⟨[], 0, true⟩ rfl

/-! Claim C1: the spec example with a scalar after a bracketed index. -/

/-- C1 counterexample: the full parse of the text from the claim does
not succeed with the padded sequence; `[4]=5` has no brace, so it is
handed to type coercion whole and `int` raises a ValueError. -/
theorem c1_counterexample :
    load ['{', '1', ',', '2', ',', '[', '4', ']', '=', '5', '}'] =
      .error (.valueError ['[', '4', ']', '=', '5']) := rfl

/-- C1 amended: sparse-index padding happens when the indexed element is
a nested unit; with the indexed value written as a nested unit the parse
succeeds and the intervening indices are materialised as empty strings. -/
theorem c1_amended :
    load ['{', '1', ',', '2', ',', '[', '4', ']', '=', '{', '5', '}', '}'] =
      .ok (.seq [.pyint 1, .pyint 2, .pystr [], .pystr [], .seq [.pyint 5]],
        7, []) := rfl

/-! Claim C2: the unindexed nested element and the next_element counter. -/

/-- C2: evaluation at the failing input.  The unindexed nested unit does
not increment the internal counter, so the later bracketed index `[2]=`
inserts two placeholders instead of one and the indexed element lands at
position 3 instead of position 2. -/
theorem c2_code_behavior :
    load ['{', '{', '1', '}', ',', '[', '2', ']', '=', '{', '5', '}', '}'] =
      .ok (.seq [.seq [.pyint 1], .pystr [], .pystr [], .seq [.pyint 5]],
        8, []) := rfl

/-! Claim C3: the empty-line abort of the sequence branch. -/

/-- C3 counterexample: a sequence unit whose first line strips to empty.
The trace shows line 1 was consumed, it strips to empty, and the closing
brace is at line 3; yet the unit returns a non-empty sequence and no
diagnostic, because the abort check runs only at the bottom of the loop. -/
theorem c3_counterexample :
    map_reader (raw_map_to_list ['{', ',', '1', '}']) 20 1 =
      .ok (.seq [.pystr [], .pyint 1], 4, [], [1, 2, 3]) ∧
    (raw_map_to_list ['{', ',', '1', '}'])[1]? = some ['\t', ','] ∧
    procLine ['\t', ','] = [] ∧
    (raw_map_to_list ['{', ',', '1', '}'])[3]? = some ['}'] :=
  ⟨rfl, rfl, rfl, rfl⟩

/-! Claim C4: every unit parse ends in a closing-brace line. -/

/-- C4 counterexample: a sequence unit hit by the empty-line abort.  The
unit returns with cursor 3, so its last consumed line is line 2, which
contains no closing brace; the closing-brace line 4 is never consumed. -/
theorem c4_counterexample :
    map_reader (raw_map_to_list ['{', '1', ',', ',', '2', '}']) 20 1 =
      .ok (.seq [], 3, [.unexpectedEOF], [1, 2]) ∧
    (raw_map_to_list ['{', '1', ',', ',', '2', '}'])[2]? = some ['\t', ','] ∧
    containsCh ['\t', ','] '}' = false ∧
    (raw_map_to_list ['{', '1', ',', ',', '2', '}'])[4]? = some ['}'] :=
  ⟨rfl, rfl, rfl, rfl⟩

/-! Claim C9: unhandled lines in the mapping branch are skipped. -/

/-- C9: in the mapping branch a consumed line with neither an equals
sign nor a closing brace produces exactly one diagnostic naming the line
and the cursor position, the accumulator passes through unchanged, and
the loop continues with the next line; on the claim's concrete input the
result is the two-entry mapping with one diagnostic. -/
theorem c9_unhandled_line :
    (∀ (lines : List (List Char)) (fuel : ℕ) (line : List Char) (c : ℕ)
        (acc : List (List Char × Value)) (raw : List Char),
        containsCh line '=' = false → containsCh line '}' = false →
        lines[c]? = some raw →
        run lines (fuel + 1) (.mapL line c acc) =
          match run lines fuel (.mapL (procLine raw) (c + 1) acc) with
          | .error e => .error e
          | .ok (v, cf, ds, tr) =>
            .ok (v, cf, .unhandledLine line c :: ds, c :: tr)) ∧
    load ['{', 'a', '=', '1', ',', 'g', 'a', 'r', 'b', 'a', 'g', 'e', ',',
          'b', '=', '2', '}'] =
      .ok (.map [(['a'], .pyint 1), (['b'], .pyint 2)], 5,
        [.unhandledLine ['g', 'a', 'r', 'b', 'a', 'g', 'e'] 3]) := by
  constructor
  · intro lines fuel line c acc raw h1 h2 h3
    cases hr : run lines fuel (.mapL (procLine raw) (c + 1) acc) with
    | error e => simp [run, h1, h2, get_next_line_eq lines raw c h3, hr]
    | ok r =>
      obtain ⟨v, cf, ds, tr⟩ := r
      simp [run, h1, h2, get_next_line_eq lines raw c h3, hr]
  · rfl

/-- Witness for C9's loop property at a concrete state. -/
theorem c9_witness :
    run [['x']] 4 (.mapL ['g'] 0 []) =
      match run [['x']] 3 (.mapL (procLine ['x']) 1 []) with
      | .error e => .error e
      | .ok (v, cf, ds, tr) =>
        .ok (v, cf, .unhandledLine ['g'] 0 :: ds, 0 :: tr) :=
  c9_unhandled_line.1 [['x']] 3 ['g'] 0 [] ['x'] rfl rfl rfl


/-- Cursor component of a control point. -/
def reqC : Req → ℕ
  | .reader c => c
  | .seqL _ c _ _ => c
  | .mapL _ c _ => c

theorem gnl_inv {lines : List (List Char)} {c c1 : ℕ} {line : List Char}
    (h : get_next_line lines c = .ok (line, c1)) :
    c1 = c + 1 ∧ ∃ raw, lines[c]? = some raw ∧ line = procLine raw := by
  unfold get_next_line at h
  cases hg : lines[c]? with
  | none => rw [hg] at h; exact absurd h (by simp)
  | some raw =>
    rw [hg] at h
    simp only [Except.ok.injEq, Prod.mk.injEq] at h
    exact ⟨h.2.symm, raw, rfl, h.1.symm⟩

/-- C3 amended: whenever a sequence-branch loop invocation returns and
its last consumed line strips to empty (an empty line consumed at the
bottom of the loop, i.e. any consumed line after the unit's first,
before a closing-brace line was seen), the returned value is the empty
sequence regardless of the accumulated elements, the last emitted
diagnostic is the abort diagnostic, and the last line read is the empty
one; the unit returns normally, so the overall parse continues.  This
covers empty lines following scalar lines, nested units and indexed
nested units alike; an empty first line of a unit is excluded, as the
counterexample shows it is coerced instead. -/
theorem c3_amended :
    ∀ (fuel : ℕ) (lines : List (List Char)) (line : List Char) (c : ℕ)
      (nx : ℤ) (acc : List Value) (v : Value) (c2 : ℕ) (ds : List Diag)
      (tr : List ℕ) (raw : List Char),
      run lines fuel (.seqL line c nx acc) = .ok (v, c2, ds, tr) →
      (∃ raw0, lines[c - 1]? = some raw0 ∧ procLine raw0 = line) →
      lines[c2 - 1]? = some raw → procLine raw = [] →
      v = .seq [] ∧ ds.getLast? = some .unexpectedEOF ∧
        tr.getLast? = some (c2 - 1) := by
  intro fuel
  induction fuel with
  | zero =>
    intro lines line c nx acc v c2 ds tr raw h hinv hraw hempty
    simp [run] at h
  | succ fuel ih =>
    intro lines line c nx acc v c2 ds tr raw h hinv hraw hempty
    simp only [run] at h
    split at h
    · rename_i hbr
      simp only [Except.ok.injEq, Prod.mk.injEq] at h
      obtain ⟨hv, hc, hds, htr⟩ := h
      obtain ⟨raw0, hr0, hl0⟩ := hinv
      rw [← hc] at hraw
      rw [hr0, Option.some.injEq] at hraw
      rw [hraw, hempty] at hl0
      rw [← hl0] at hbr
      exact absurd hbr (by decide)
    · split at h
      · exact absurd h (by simp)
      · rename_i acc1 nx1 c1 ds1 tr1 heq
        cases hg2 : get_next_line lines c1 with
        | error e => simp only [hg2] at h; exact absurd h (by simp)
        | ok p2 =>
          obtain ⟨line2, c2x⟩ := p2
          simp only [hg2] at h
          obtain ⟨hc2x, raw2, hraw2, hline2⟩ := gnl_inv hg2
          subst hc2x
          split at h
          · simp only [Except.ok.injEq, Prod.mk.injEq] at h
            obtain ⟨hv, hc, hds, htr⟩ := h
            refine ⟨hv.symm, ?_, ?_⟩
            · rw [← hds, List.getLast?_concat]
            · rw [← htr, List.getLast?_concat, ← hc, Nat.add_sub_cancel]
          · cases hr2 : run lines fuel (.seqL line2 (c1 + 1) nx1 acc1) with
            | error e => simp only [hr2] at h; exact absurd h (by simp)
            | ok r3 =>
              obtain ⟨vf, cf, dsf, trf⟩ := r3
              simp only [hr2, Except.ok.injEq, Prod.mk.injEq] at h
              obtain ⟨hv, hc, hds, htr⟩ := h
              have hinv2 : ∃ raw0, lines[(c1 + 1) - 1]? = some raw0 ∧
                  procLine raw0 = line2 := by
                rw [Nat.add_sub_cancel]
                exact ⟨raw2, hraw2, hline2.symm⟩
              have hraw2b : lines[cf - 1]? = some raw := by rw [hc]; exact hraw
              obtain ⟨ih1, ih2, ih3⟩ :=
                ih lines line2 (c1 + 1) nx1 acc1 vf cf dsf trf raw hr2 hinv2
                  hraw2b hempty
              refine ⟨by rw [← hv, ih1], ?_, ?_⟩
              · rw [← hds, List.getLast?_append, ih2, Option.or_some]
              · rw [← htr, List.getLast?_append,
                  show (c1 :: trf).getLast? = trf.getLast?.or [c1].getLast? from by
                    rw [← List.getLast?_append, List.singleton_append],
                  ih3, Option.or_some, Option.or_some, ← hc]

/-- Witness for C3's amended statement: the empty line of the unit in
the text with a nested unit before the empty line. -/
theorem c3_witness :
    Value.seq [] = Value.seq [] ∧
    ([Diag.unexpectedEOF] : List Diag).getLast? = some .unexpectedEOF ∧
    ([2, 3, 4] : List ℕ).getLast? = some (5 - 1) :=
  c3_amended 10 (raw_map_to_list ['{', '{', '1', '}', ',', ',', '2', '}'])
    ['{'] 2 0 [] (.seq []) 5 [.unexpectedEOF] [2, 3, 4] ['\t', ',']
    rfl ⟨['\t', '{'], rfl, rfl⟩ rfl rfl

theorem range1_concat (s m n : ℕ) :
    List.range' s m ++ List.range' (s + m) n = List.range' s (m + n) := by
  rw [Nat.add_comm m n]
  exact List.range'_append_1 s m n

theorem range1_snoc (s m : ℕ) :
    List.range' s m ++ [s + m] = List.range' s (m + 1) := by
  simpa [Nat.add_comm] using List.range'_append_1 s m 1

theorem run_trace :
    ∀ (fuel : ℕ) (lines : List (List Char)) (req : Req) (v : Value) (c2 : ℕ)
      (ds : List Diag) (tr : List ℕ),
      run lines fuel req = .ok (v, c2, ds, tr) →
      reqC req ≤ c2 ∧ tr = List.range' (reqC req) (c2 - reqC req) ∧
      ∀ c, req = .reader c → c < c2 := by
  intro fuel
  induction fuel with
  | zero =>
    intro lines req v c2 ds tr h
    simp [run] at h
  | succ fuel ih =>
    intro lines req v c2 ds tr h
    cases req with
    | reader c =>
      simp only [run, reqC] at h ⊢
      cases hg : get_next_line lines c with
      | error e => simp only [hg] at h; exact absurd h (by simp)
      | ok p =>
        obtain ⟨line, c1⟩ := p
        simp only [hg] at h
        have hc1 : c1 = c + 1 := (gnl_inv hg).1
        subst hc1
        split at h
        · cases hr : run lines fuel (.mapL line (c + 1) []) with
          | error e => simp only [hr] at h; exact absurd h (by simp)
          | ok r =>
            obtain ⟨vq, cq, dsq, trq⟩ := r
            simp only [hr, Except.ok.injEq, Prod.mk.injEq] at h
            obtain ⟨hv, hc, hds, htr⟩ := h
            obtain ⟨ih1, ih2, -⟩ := ih lines _ _ _ _ _ hr
            simp only [reqC] at ih1 ih2
            refine ⟨by omega, ?_, by intro c0 hc0; injection hc0 with hh; omega⟩
            rw [← htr, ← hc, ih2,
              show cq - c = (cq - (c + 1)) + 1 by omega, List.range'_succ]
        · cases hr : run lines fuel (.seqL line (c + 1) 0 []) with
          | error e => simp only [hr] at h; exact absurd h (by simp)
          | ok r =>
            obtain ⟨vq, cq, dsq, trq⟩ := r
            simp only [hr, Except.ok.injEq, Prod.mk.injEq] at h
            obtain ⟨hv, hc, hds, htr⟩ := h
            obtain ⟨ih1, ih2, -⟩ := ih lines _ _ _ _ _ hr
            simp only [reqC] at ih1 ih2
            refine ⟨by omega, ?_, by intro c0 hc0; injection hc0 with hh; omega⟩
            rw [← htr, ← hc, ih2,
              show cq - c = (cq - (c + 1)) + 1 by omega, List.range'_succ]
    | seqL line c nx acc =>
      simp only [run, reqC] at h ⊢
      split at h
      · simp only [Except.ok.injEq, Prod.mk.injEq] at h
        obtain ⟨hv, hc, hds, htr⟩ := h
        refine ⟨by omega, ?_, by intro c0 hc0; simp at hc0⟩
        rw [← htr, ← hc]
        simp
      · split at h
        · exact absurd h (by simp)
        · rename_i acc1 nx1 c1 ds1 tr1 heq
          have hfacts : c ≤ c1 ∧ tr1 = List.range' c (c1 - c) := by
            split at heq
            · split at heq
              · split at heq
                · exact absurd heq (by simp)
                · rename_i n hpy
                  split at heq
                  · exact absurd heq (by simp)
                  · rename_i vr cr dsr trr hrun
                    simp only [Except.ok.injEq, Prod.mk.injEq] at heq
                    obtain ⟨h1, h2, h3, h4, h5⟩ := heq
                    obtain ⟨-, ihb, ihc⟩ := ih lines _ _ _ _ _ hrun
                    simp only [reqC] at ihb
                    have hlt := ihc c rfl
                    exact ⟨by omega, by rw [← h5, ihb, ← h3]⟩
              · split at heq
                · exact absurd heq (by simp)
                · rename_i vr cr dsr trr hrun
                  simp only [Except.ok.injEq, Prod.mk.injEq] at heq
                  obtain ⟨h1, h2, h3, h4, h5⟩ := heq
                  obtain ⟨-, ihb, ihc⟩ := ih lines _ _ _ _ _ hrun
                  simp only [reqC] at ihb
                  have hlt := ihc c rfl
                  exact ⟨by omega, by rw [← h5, ihb, ← h3]⟩
            · split at heq
              · exact absurd heq (by simp)
              · rename_i vq hcd
                simp only [Except.ok.injEq, Prod.mk.injEq] at heq
                obtain ⟨h1, h2, h3, h4, h5⟩ := heq
                exact ⟨by omega, by rw [← h5, ← h3]; simp⟩
          obtain ⟨hc1, htr1⟩ := hfacts
          cases hg2 : get_next_line lines c1 with
          | error e => simp only [hg2] at h; exact absurd h (by simp)
          | ok p2 =>
            obtain ⟨line2, c2x⟩ := p2
            simp only [hg2] at h
            have hc2x : c2x = c1 + 1 := (gnl_inv hg2).1
            subst hc2x
            split at h
            · simp only [Except.ok.injEq, Prod.mk.injEq] at h
              obtain ⟨hv, hc, hds, htr⟩ := h
              refine ⟨by omega, ?_, by intro c0 hc0; simp at hc0⟩
              have hsnoc : tr1 ++ [c1] = List.range' c ((c1 - c) + 1) := by
                rw [htr1]
                have h6 := range1_snoc c (c1 - c)
                rw [show c + (c1 - c) = c1 from by omega] at h6
                exact h6
              rw [← htr, hsnoc, show c2 - c = (c1 - c) + 1 from by omega]
            · cases hr2 : run lines fuel (.seqL line2 (c1 + 1) nx1 acc1) with
              | error e => simp only [hr2] at h; exact absurd h (by simp)
              | ok r3 =>
                obtain ⟨vf, cf, dsf, trf⟩ := r3
                simp only [hr2, Except.ok.injEq, Prod.mk.injEq] at h
                obtain ⟨hv, hc, hds, htr⟩ := h
                obtain ⟨ih1, ih2, -⟩ := ih lines _ _ _ _ _ hr2
                simp only [reqC] at ih1 ih2
                refine ⟨by omega, ?_, by intro c0 hc0; simp at hc0⟩
                have h1 : List.range' c1 (cf - c1) = c1 :: trf := by
                  rw [ih2, show cf - c1 = (cf - (c1 + 1)) + 1 from by omega,
                    List.range'_succ]
                have h2 : tr1 ++ c1 :: trf = List.range' c (c2 - c) := by
                  rw [htr1, ← h1]
                  have h3 := range1_concat c (c1 - c) (cf - c1)
                  rw [show c + (c1 - c) = c1 from by omega] at h3
                  rw [h3, show (c1 - c) + (cf - c1) = c2 - c from by omega]
                rw [← htr, h2]
    | mapL line c acc =>
      simp only [run, reqC] at h ⊢
      split at h
      · simp only [Except.ok.injEq, Prod.mk.injEq] at h
        obtain ⟨hv, hc, hds, htr⟩ := h
        refine ⟨by omega, ?_, by intro c0 hc0; simp at hc0⟩
        rw [← htr, ← hc]
        simp
      · split at h
        · exact absurd h (by simp)
        · rename_i acc1 c1 ds1 tr1 heq
          have hfacts : c ≤ c1 ∧ tr1 = List.range' c (c1 - c) := by
            split at heq
            · split at heq
              · split at heq
                · exact absurd heq (by simp)
                · rename_i vr cr dsr trr hrun
                  simp only [Except.ok.injEq, Prod.mk.injEq] at heq
                  obtain ⟨h1, h2, h3, h4⟩ := heq
                  obtain ⟨-, ihb, ihc⟩ := ih lines _ _ _ _ _ hrun
                  simp only [reqC] at ihb
                  have hlt := ihc c rfl
                  exact ⟨by omega, by rw [← h4, ihb, ← h2]⟩
              · split at heq
                · exact absurd heq (by simp)
                · rename_i vq hcd
                  simp only [Except.ok.injEq, Prod.mk.injEq] at heq
                  obtain ⟨h1, h2, h3, h4⟩ := heq
                  exact ⟨by omega, by rw [← h4, ← h2]; simp⟩
            · simp only [Except.ok.injEq, Prod.mk.injEq] at heq
              obtain ⟨h1, h2, h3, h4⟩ := heq
              exact ⟨by omega, by rw [← h4, ← h2]; simp⟩
          obtain ⟨hc1, htr1⟩ := hfacts
          cases hg2 : get_next_line lines c1 with
          | error e => simp only [hg2] at h; exact absurd h (by simp)
          | ok p2 =>
            obtain ⟨line2, c2x⟩ := p2
            simp only [hg2] at h
            have hc2x : c2x = c1 + 1 := (gnl_inv hg2).1
            subst hc2x
            cases hr2 : run lines fuel (.mapL line2 (c1 + 1) acc1) with
            | error e => simp only [hr2] at h; exact absurd h (by simp)
            | ok r3 =>
              obtain ⟨vf, cf, dsf, trf⟩ := r3
              simp only [hr2, Except.ok.injEq, Prod.mk.injEq] at h
              obtain ⟨hv, hc, hds, htr⟩ := h
              obtain ⟨ih1, ih2, -⟩ := ih lines _ _ _ _ _ hr2
              simp only [reqC] at ih1 ih2
              refine ⟨by omega, ?_, by intro c0 hc0; simp at hc0⟩
              have h1 : List.range' c1 (cf - c1) = c1 :: trf := by
                rw [ih2, show cf - c1 = (cf - (c1 + 1)) + 1 from by omega,
                  List.range'_succ]
              have h2 : tr1 ++ c1 :: trf = List.range' c (c2 - c) := by
                rw [htr1, ← h1]
                have h3 := range1_concat c (c1 - c) (cf - c1)
                rw [show c + (c1 - c) = c1 from by omega] at h3
                rw [h3, show (c1 - c) + (cf - c1) = c2 - c from by omega]
              rw [← htr, h2]


/-- C5: across any successful reader invocation the trace of line-list
indices read is exactly the contiguous block from the starting cursor to
the final cursor: the cursor advances by one per consumed line, never
decreases, and no line is read twice. -/
theorem c5_cursor_trace :
    ∀ (lines : List (List Char)) (fuel c : ℕ) (v : Value) (c2 : ℕ)
      (ds : List Diag) (tr : List ℕ),
      map_reader lines fuel c = .ok (v, c2, ds, tr) →
      c < c2 ∧ tr = List.range' c (c2 - c) := by
  intro lines fuel c v c2 ds tr h
  unfold map_reader at h
  obtain ⟨h1, h2, h3⟩ := run_trace fuel lines (.reader c) v c2 ds tr h
  exact ⟨h3 c rfl, h2⟩

/-- Witness for C5 at a concrete parse. -/
theorem c5_witness :
    1 < 3 ∧ [1, 2] = List.range' 1 (3 - 1) :=
  c5_cursor_trace (raw_map_to_list ['{', '2', '}']) 10 1 (.seq [.pyint 2]) 3
    [] [1, 2] rfl

/-- Invariant of the two loop control points: the current line is the
processed form of the line just before the cursor. -/
def reqInv (lines : List (List Char)) : Req → Prop
  | .reader _ => True
  | .seqL line c _ _ => ∃ raw, lines[c - 1]? = some raw ∧ procLine raw = line
  | .mapL line c _ => ∃ raw, lines[c - 1]? = some raw ∧ procLine raw = line

theorem run_closing :
    ∀ (fuel : ℕ) (lines : List (List Char)) (req : Req) (v : Value) (c2 : ℕ)
      (ds : List Diag) (tr : List ℕ),
      run lines fuel req = .ok (v, c2, ds, tr) →
      Diag.unexpectedEOF ∉ ds → reqInv lines req →
      reqC req ≤ c2 ∧ (∀ c, req = .reader c → c < c2) ∧
      ∃ raw, lines[c2 - 1]? = some raw ∧ containsCh (procLine raw) '}' = true := by
  intro fuel
  induction fuel with
  | zero =>
    intro lines req v c2 ds tr h heof hinv
    simp [run] at h
  | succ fuel ih =>
    intro lines req v c2 ds tr h heof hinv
    cases req with
    | reader c =>
      simp only [run, reqC] at h ⊢
      cases hg : get_next_line lines c with
      | error e => simp only [hg] at h; exact absurd h (by simp)
      | ok p =>
        obtain ⟨line, c1⟩ := p
        simp only [hg] at h
        obtain ⟨hc1, raw0, hraw0, hline0⟩ := gnl_inv hg
        subst hc1
        have hinv2 : ∃ raw, lines[(c + 1) - 1]? = some raw ∧ procLine raw = line := by
          simp only [Nat.add_sub_cancel]
          exact ⟨raw0, hraw0, hline0.symm⟩
        split at h
        · cases hr : run lines fuel (.mapL line (c + 1) []) with
          | error e => simp only [hr] at h; exact absurd h (by simp)
          | ok r =>
            obtain ⟨vq, cq, dsq, trq⟩ := r
            simp only [hr, Except.ok.injEq, Prod.mk.injEq] at h
            obtain ⟨hv, hc, hds, htr⟩ := h
            have heof2 : Diag.unexpectedEOF ∉ dsq := by rw [hds]; exact heof
            obtain ⟨ih1, -, ih3⟩ := ih lines (.mapL line (c + 1) []) _ _ _ _ hr heof2 hinv2
            simp only [reqC] at ih1
            refine ⟨by omega, by intro c0 hc0; injection hc0 with hh; omega, ?_⟩
            rw [← hc]
            exact ih3
        · cases hr : run lines fuel (.seqL line (c + 1) 0 []) with
          | error e => simp only [hr] at h; exact absurd h (by simp)
          | ok r =>
            obtain ⟨vq, cq, dsq, trq⟩ := r
            simp only [hr, Except.ok.injEq, Prod.mk.injEq] at h
            obtain ⟨hv, hc, hds, htr⟩ := h
            have heof2 : Diag.unexpectedEOF ∉ dsq := by rw [hds]; exact heof
            obtain ⟨ih1, -, ih3⟩ := ih lines (.seqL line (c + 1) 0 []) _ _ _ _ hr heof2 hinv2
            simp only [reqC] at ih1
            refine ⟨by omega, by intro c0 hc0; injection hc0 with hh; omega, ?_⟩
            rw [← hc]
            exact ih3
    | seqL line c nx acc =>
      simp only [run, reqC] at h ⊢
      split at h
      · rename_i hbr
        simp only [Except.ok.injEq, Prod.mk.injEq] at h
        obtain ⟨hv, hc, hds, htr⟩ := h
        obtain ⟨raw0, hraw0, hline0⟩ := hinv
        refine ⟨by omega, by intro c0 hc0; simp at hc0, raw0, ?_, ?_⟩
        · rw [← hc]; exact hraw0
        · rw [hline0]; exact hbr
      · split at h
        · exact absurd h (by simp)
        · rename_i acc1 nx1 c1 ds1 tr1 heq
          have hc1 : c ≤ c1 := by
            split at heq
            · split at heq
              · split at heq
                · exact absurd heq (by simp)
                · rename_i n hpy
                  split at heq
                  · exact absurd heq (by simp)
                  · rename_i vr cr dsr trr hrun
                    simp only [Except.ok.injEq, Prod.mk.injEq] at heq
                    obtain ⟨h1, h2, h3, h4, h5⟩ := heq
                    obtain ⟨-, -, ihc⟩ := run_trace fuel lines _ _ _ _ _ hrun
                    have hlt := ihc c rfl
                    omega
              · split at heq
                · exact absurd heq (by simp)
                · rename_i vr cr dsr trr hrun
                  simp only [Except.ok.injEq, Prod.mk.injEq] at heq
                  obtain ⟨h1, h2, h3, h4, h5⟩ := heq
                  obtain ⟨-, -, ihc⟩ := run_trace fuel lines _ _ _ _ _ hrun
                  have hlt := ihc c rfl
                  omega
            · split at heq
              · exact absurd heq (by simp)
              · rename_i vq hcd
                simp only [Except.ok.injEq, Prod.mk.injEq] at heq
                obtain ⟨h1, h2, h3, h4, h5⟩ := heq
                omega
          cases hg2 : get_next_line lines c1 with
          | error e => simp only [hg2] at h; exact absurd h (by simp)
          | ok p2 =>
            obtain ⟨line2, c2x⟩ := p2
            simp only [hg2] at h
            obtain ⟨hc2x, raw2, hraw2, hline2⟩ := gnl_inv hg2
            subst hc2x
            split at h
            · simp only [Except.ok.injEq, Prod.mk.injEq] at h
              obtain ⟨hv, hc, hds, htr⟩ := h
              rw [← hds] at heof
              simp at heof
            · cases hr2 : run lines fuel (.seqL line2 (c1 + 1) nx1 acc1) with
              | error e => simp only [hr2] at h; exact absurd h (by simp)
              | ok r3 =>
                obtain ⟨vf, cf, dsf, trf⟩ := r3
                simp only [hr2, Except.ok.injEq, Prod.mk.injEq] at h
                obtain ⟨hv, hc, hds, htr⟩ := h
                have heof2 : Diag.unexpectedEOF ∉ dsf := by
                  rw [← hds] at heof
                  intro hx
                  exact heof (List.mem_append_right _ hx)
                have hinv2 : reqInv lines (.seqL line2 (c1 + 1) nx1 acc1) := by
                  simp only [reqInv, Nat.add_sub_cancel]
                  exact ⟨raw2, hraw2, hline2.symm⟩
                obtain ⟨ih1, -, ih3⟩ := ih lines _ _ _ _ _ hr2 heof2 hinv2
                simp only [reqC] at ih1
                refine ⟨by omega, by intro c0 hc0; simp at hc0, ?_⟩
                rw [← hc]
                exact ih3
    | mapL line c acc =>
      simp only [run, reqC] at h ⊢
      split at h
      · rename_i hbr
        simp only [Except.ok.injEq, Prod.mk.injEq] at h
        obtain ⟨hv, hc, hds, htr⟩ := h
        obtain ⟨raw0, hraw0, hline0⟩ := hinv
        refine ⟨by omega, by intro c0 hc0; simp at hc0, raw0, ?_, ?_⟩
        · rw [← hc]; exact hraw0
        · rw [hline0]; exact hbr
      · split at h
        · exact absurd h (by simp)
        · rename_i acc1 c1 ds1 tr1 heq
          have hc1 : c ≤ c1 := by
            split at heq
            · split at heq
              · split at heq
                · exact absurd heq (by simp)
                · rename_i vr cr dsr trr hrun
                  simp only [Except.ok.injEq, Prod.mk.injEq] at heq
                  obtain ⟨h1, h2, h3, h4⟩ := heq
                  obtain ⟨-, -, ihc⟩ := run_trace fuel lines _ _ _ _ _ hrun
                  have hlt := ihc c rfl
                  omega
              · split at heq
                · exact absurd heq (by simp)
                · rename_i vq hcd
                  simp only [Except.ok.injEq, Prod.mk.injEq] at heq
                  obtain ⟨h1, h2, h3, h4⟩ := heq
                  omega
            · simp only [Except.ok.injEq, Prod.mk.injEq] at heq
              obtain ⟨h1, h2, h3, h4⟩ := heq
              omega
          cases hg2 : get_next_line lines c1 with
          | error e => simp only [hg2] at h; exact absurd h (by simp)
          | ok p2 =>
            obtain ⟨line2, c2x⟩ := p2
            simp only [hg2] at h
            obtain ⟨hc2x, raw2, hraw2, hline2⟩ := gnl_inv hg2
            subst hc2x
            cases hr2 : run lines fuel (.mapL line2 (c1 + 1) acc1) with
            | error e => simp only [hr2] at h; exact absurd h (by simp)
            | ok r3 =>
              obtain ⟨vf, cf, dsf, trf⟩ := r3
              simp only [hr2, Except.ok.injEq, Prod.mk.injEq] at h
              obtain ⟨hv, hc, hds, htr⟩ := h
              have heof2 : Diag.unexpectedEOF ∉ dsf := by
                rw [← hds] at heof
                intro hx
                exact heof (List.mem_append_right _ hx)
              have hinv2 : reqInv lines (.mapL line2 (c1 + 1) acc1) := by
                simp only [reqInv, Nat.add_sub_cancel]
                exact ⟨raw2, hraw2, hline2.symm⟩
              obtain ⟨ih1, -, ih3⟩ := ih lines _ _ _ _ _ hr2 heof2 hinv2
              simp only [reqC] at ih1
              refine ⟨by omega, by intro c0 hc0; simp at hc0, ?_⟩
              rw [← hc]
              exact ih3

/-- C4 amended: a reader invocation that returns without any empty-line
abort diagnostic consumed at least one line, its last consumed line is a
closing-brace line, and the cursor on return is exactly one past it. -/
theorem c4_amended :
    ∀ (lines : List (List Char)) (fuel c : ℕ) (v : Value) (c2 : ℕ)
      (ds : List Diag) (tr : List ℕ),
      map_reader lines fuel c = .ok (v, c2, ds, tr) →
      Diag.unexpectedEOF ∉ ds →
      c < c2 ∧ ∃ raw, lines[c2 - 1]? = some raw ∧
        containsCh (procLine raw) '}' = true := by
  intro lines fuel c v c2 ds tr h heof
  unfold map_reader at h
  obtain ⟨h1, h2, h3⟩ := run_closing fuel lines (.reader c) v c2 ds tr h heof trivial
  exact ⟨h2 c rfl, h3⟩

/-- Witness for C4's amended statement at a concrete parse. -/
theorem c4_witness :
    1 < 3 ∧ ∃ raw, (raw_map_to_list ['{', '7', '}'])[3 - 1]? = some raw ∧
      containsCh (procLine raw) '}' = true :=
  c4_amended (raw_map_to_list ['{', '7', '}']) 10 1 (.seq [.pyint 7]) 3 [] [1, 2]
    rfl (by simp)


/-! Claim C6: idempotence of coercion on canonical string forms.  The
source never converts a typed value back to text, so the canonical
string form is modelled from the spec; the renderings below produce the
dialect token that denotes each scalar. -/

/-- Decimal digit characters of a natural number, most significant
digit first. -/
def renderNat (n : ℕ) : List Char :=
  if n = 0 then ['0'] else ((Nat.digits 10 n).map Nat.digitChar).reverse

/-- Decimal rendering of an integer: minus sign, then digits. -/
def renderInt (n : ℤ) : List Char :=
  if n < 0 then '-' :: renderNat n.natAbs else renderNat n.natAbs

/-- Decimal rendering of an exact-decimal float: integer part, point,
fraction part padded with leading zeros to the exponent width; integral
values are rendered with a trailing `.0` as Python str does. -/
def renderDec (d : Dec) : List Char :=
  if d.e = 0 then renderInt d.m ++ ['.', '0']
  else
    (if d.m < 0 then ['-'] else []) ++
      (renderNat (d.m.natAbs / 10 ^ d.e) ++
        ('.' :: (List.replicate
            (d.e - (renderNat (d.m.natAbs % 10 ^ d.e)).length) '0' ++
          renderNat (d.m.natAbs % 10 ^ d.e))))

/-- Modelled from the spec: the canonical string form of an
already-typed scalar (the code has no value-to-text conversion, so this
follows the spec's words).  The canonical form of the null sentinel is
the empty token, of a string the verbatim text, of booleans the dialect
tokens, and of numbers their plain decimal renderings. -/
def canonicalString : Value → List Char
  | .pystr s => s
  | .pybool true => trueTok
  | .pybool false => falseTok
  | .pyint n => renderInt n
  | .pyfloat d => renderDec d
  | .seq _ => []
  | .map _ => []

theorem digitChar_isDigit {d : ℕ} (h : d < 10) :
    (Nat.digitChar d).isDigit = true := by
  interval_cases d <;> decide

theorem digitChar_val {d : ℕ} (h : d < 10) :
    (Nat.digitChar d).toNat - 48 = d := by
  interval_cases d <;> decide

theorem renderNat_ne_nil (n : ℕ) : renderNat n ≠ [] := by
  unfold renderNat
  split
  · simp
  · rename_i h
    simp only [ne_eq, List.reverse_eq_nil_iff, List.map_eq_nil_iff]
    exact Nat.digits_ne_nil_iff_ne_zero.mpr h

theorem renderNat_digits (n : ℕ) : ∀ c ∈ renderNat n, c.isDigit = true := by
  unfold renderNat
  split
  · intro c hc
    simp only [List.mem_singleton] at hc
    subst hc
    decide
  · intro c hc
    simp only [List.mem_reverse, List.mem_map] at hc
    obtain ⟨d, hd, rfl⟩ := hc
    exact digitChar_isDigit (Nat.digits_lt_base (by norm_num) hd)

theorem natVal_renderNat (n : ℕ) : natVal (renderNat n) = n := by
  unfold renderNat
  split
  · rename_i h
    subst h
    decide
  · rename_i h
    unfold natVal
    rw [List.foldl_reverse, List.foldr_map]
    have key : ∀ L : List ℕ, (∀ d ∈ L, d < 10) →
        List.foldr (fun d a => a * 10 + ((Nat.digitChar d).toNat - 48)) 0 L =
          Nat.ofDigits 10 L := by
      intro L
      induction L with
      | nil => intro _; simp [Nat.ofDigits_nil]
      | cons d t iht =>
        intro hmem
        rw [List.foldr_cons, iht (fun x hx => hmem x (List.mem_cons_of_mem _ hx)),
          Nat.ofDigits_cons, digitChar_val (hmem d (List.mem_cons_self _ _))]
        ring
    rw [key _ (fun d hd => Nat.digits_lt_base (by norm_num) hd),
      Nat.ofDigits_digits]

theorem renderNat_length_le {n k : ℕ} (h : n < 10 ^ k) (hk : 1 ≤ k) :
    (renderNat n).length ≤ k := by
  unfold renderNat
  split
  · simpa using hk
  · rename_i hn
    simp only [List.length_reverse, List.length_map]
    by_contra hlen
    push_neg at hlen
    have hle := Nat.base_pow_length_digits_le 10 n (by norm_num) hn
    have h2 : 10 ^ (k + 1) ≤ 10 ^ (Nat.digits 10 n).length :=
      Nat.pow_le_pow_right (by norm_num) hlen
    have h3 : 10 * 10 ^ k ≤ 10 * n := by
      calc 10 * 10 ^ k = 10 ^ (k + 1) := by ring
        _ ≤ 10 ^ (Nat.digits 10 n).length := h2
        _ ≤ 10 * n := hle
    omega

theorem foldl_zero_replicate (k : ℕ) :
    List.foldl (fun a c => a * 10 + (c.toNat - 48)) 0
      (List.replicate k '0') = 0 := by
  induction k with
  | zero => rfl
  | succ k ihk =>
    rw [List.replicate_succ, List.foldl_cons]
    simpa using ihk

theorem natVal_replicate_zero (k : ℕ) (l : List Char) :
    natVal (List.replicate k '0' ++ l) = natVal l := by
  unfold natVal
  rw [List.foldl_append, foldl_zero_replicate]


theorem isWS_false_of_isDigit {c : Char} (h : c.isDigit = true) :
    isWS c = false := by
  by_contra hw
  rw [Bool.not_eq_false] at hw
  unfold isWS at hw
  simp only [Bool.or_eq_true, decide_eq_true_eq] at hw
  rcases hw with ((hww | hww) | hww) | hww <;>
    (subst hww; exact absurd h (by decide))

theorem containsCh_eq_false {l : List Char} {c : Char} (h : c ∉ l) :
    containsCh l c = false := by
  rw [← Bool.not_eq_true, containsCh_iff]
  exact h

theorem dropWhile_eq_self_of_all {p : Char → Bool} {l : List Char}
    (h : ∀ c ∈ l, p c = false) : l.dropWhile p = l := by
  cases l with
  | nil => rfl
  | cons a t =>
    rw [List.dropWhile_cons, if_neg]
    simp [h a (List.mem_cons_self a t)]

theorem strip_eq_self {l : List Char} (h : ∀ c ∈ l, isWS c = false) :
    strip l = l := by
  unfold strip
  rw [dropWhile_eq_self_of_all h,
    dropWhile_eq_self_of_all (fun c hc => h c (List.mem_reverse.mp hc)),
    List.reverse_reverse]

theorem takeWhile_append_all {p : Char → Bool} {l r : List Char}
    (h : ∀ c ∈ l, p c = true) :
    (l ++ r).takeWhile p = l ++ r.takeWhile p := by
  induction l with
  | nil => simp
  | cons a t iht =>
    rw [List.cons_append, List.takeWhile_cons, if_pos (h a (List.mem_cons_self a t)),
      iht (fun c hc => h c (List.mem_cons_of_mem _ hc)), List.cons_append]

theorem dropWhile_append_all {p : Char → Bool} {l r : List Char}
    (h : ∀ c ∈ l, p c = true) :
    (l ++ r).dropWhile p = r.dropWhile p := by
  induction l with
  | nil => simp
  | cons a t iht =>
    rw [List.cons_append, List.dropWhile_cons, if_pos (h a (List.mem_cons_self a t)),
      iht (fun c hc => h c (List.mem_cons_of_mem _ hc))]

theorem renderInt_eq (n : ℤ) :
    renderInt n = (if n < 0 then ['-'] else []) ++ renderNat n.natAbs := by
  unfold renderInt
  split <;> simp

theorem renderInt_chars (n : ℤ) :
    ∀ c ∈ renderInt n, c.isDigit = true ∨ c = '-' := by
  intro c hc
  rw [renderInt_eq] at hc
  rcases List.mem_append.mp hc with h1 | h2
  · split at h1
    · simp only [List.mem_singleton] at h1
      right
      exact h1
    · simp at h1
  · left
    exact renderNat_digits _ _ h2

theorem parseNatDigits_renderNat (n : ℕ) :
    parseNatDigits (renderNat n) = some n := by
  unfold parseNatDigits
  rw [if_neg (renderNat_ne_nil n), if_pos (List.all_eq_true.mpr (renderNat_digits n)),
    natVal_renderNat]

theorem pyInt_cons (c : Char) (rest : List Char)
    (h : strip (c :: rest) = c :: rest) :
    pyInt (c :: rest) =
      if c = '-' then (parseNatDigits rest).map (fun n => -(Int.ofNat n))
      else if c = '+' then (parseNatDigits rest).map (fun n => Int.ofNat n)
      else (parseNatDigits (c :: rest)).map (fun n => Int.ofNat n) := by
  unfold pyInt
  rw [h]

theorem pyInt_renderInt (n : ℤ) : pyInt (renderInt n) = some n := by
  have hstrip : strip (renderInt n) = renderInt n :=
    strip_eq_self (by
      intro c hc
      rcases renderInt_chars n c hc with h1 | h1
      · exact isWS_false_of_isDigit h1
      · subst h1; decide)
  obtain ⟨c0, t0, hct⟩ : ∃ c0 t0, renderNat n.natAbs = c0 :: t0 := by
    cases hcase : renderNat n.natAbs with
    | nil => exact absurd hcase (renderNat_ne_nil _)
    | cons a b => exact ⟨a, b, rfl⟩
  have hc0 : c0.isDigit = true :=
    renderNat_digits _ c0 (by rw [hct]; exact List.mem_cons_self _ _)
  by_cases hneg : n < 0
  · have htok : renderInt n = '-' :: renderNat n.natAbs := by
      rw [renderInt_eq, if_pos hneg, List.singleton_append]
    rw [htok, pyInt_cons _ _ (htok ▸ hstrip), if_pos rfl, parseNatDigits_renderNat]
    rw [Option.map_some']
    congr 1
    rw [show Int.ofNat n.natAbs = (n.natAbs : ℤ) from rfl,
      Int.ofNat_natAbs_of_nonpos (by omega), neg_neg]
  · have htok : renderInt n = renderNat n.natAbs := by
      rw [renderInt_eq, if_neg hneg, List.nil_append]
    have hstrip2 : strip (c0 :: t0) = c0 :: t0 := by
      rw [← hct, ← htok]
      exact hstrip
    rw [htok, hct, pyInt_cons c0 t0 hstrip2, if_neg, if_neg, ← hct,
      parseNatDigits_renderNat]
    · rw [Option.map_some']
      congr 1
      rw [show Int.ofNat n.natAbs = (n.natAbs : ℤ) from rfl,
        Int.natAbs_of_nonneg (by omega)]
    · rintro rfl; exact absurd hc0 (by decide)
    · rintro rfl; exact absurd hc0 (by decide)


theorem normAux_norm (e : ℕ) :
    ∀ m : ℤ, (normAux m e).2 = 0 ∨ ¬ (normAux m e).1 % 10 = 0 := by
  induction e with
  | zero => intro m; left; rfl
  | succ e ihe =>
    intro m
    unfold normAux
    split
    · exact ihe (m / 10)
    · rename_i hx
      right
      exact hx

theorem normalize_norm (m : ℤ) (e : ℕ) :
    (Dec.normalize m e).e = 0 ∨ ¬ (Dec.normalize m e).m % 10 = 0 :=
  normAux_norm e m

theorem normalize_id {m : ℤ} {e : ℕ} (h : e = 0 ∨ ¬ m % 10 = 0) :
    Dec.normalize m e = ⟨m, e⟩ := by
  rcases h with rfl | h
  · simp [Dec.normalize, normAux]
  · cases e with
    | zero => simp [Dec.normalize, normAux]
    | succ e2 =>
      unfold Dec.normalize normAux
      rw [if_neg h]

theorem norm_ten (m : ℤ) : Dec.normalize (10 * m) 1 = ⟨m, 0⟩ := by
  unfold Dec.normalize normAux
  rw [if_pos (Int.mul_emod_right 10 m), Int.mul_ediv_cancel_left m (by norm_num)]
  simp [normAux]

theorem pyFloatSign_cons (c : Char) (rest : List Char) :
    pyFloatSign (c :: rest) =
      if c = '-' then ((-1 : ℤ), rest)
      else if c = '+' then ((1 : ℤ), rest)
      else ((1 : ℤ), c :: rest) := rfl

theorem pyFloatBody_shape (sg : ℤ) (ip fp : List Char)
    (hip : ∀ c ∈ ip, c.isDigit = true) (hfp : ∀ c ∈ fp, c.isDigit = true)
    (hne : ip ≠ []) :
    pyFloatBody sg (ip ++ '.' :: fp) =
      some (Dec.normalize
        (sg * ((natVal ip : ℤ) * (10 : ℤ) ^ fp.length + (natVal fp : ℤ)))
        fp.length) := by
  have htw : (ip ++ '.' :: fp).takeWhile Char.isDigit = ip := by
    rw [takeWhile_append_all hip, List.takeWhile_cons, if_neg (by decide),
      List.append_nil]
  have hdw : (ip ++ '.' :: fp).dropWhile Char.isDigit = '.' :: fp := by
    rw [dropWhile_append_all hip, List.dropWhile_cons, if_neg (by decide)]
  have hall : fp.all Char.isDigit = true := List.all_eq_true.mpr hfp
  have hie : ip.isEmpty = false := by
    cases ip with
    | nil => exact absurd rfl hne
    | cons a t => rfl
  unfold pyFloatBody
  split
  · rename_i heq0
    rw [hdw] at heq0
    simp at heq0
  · rename_i cq fpq heq0
    rw [hdw] at heq0
    injection heq0 with h1 h2
    subst h1
    subst h2
    rw [if_pos rfl, htw, hall, hie]
    simp


theorem renderDec_chars (d : Dec) :
    ∀ c ∈ renderDec d, c.isDigit = true ∨ c = '-' ∨ c = '.' := by
  intro c hc
  unfold renderDec at hc
  split at hc
  · rcases List.mem_append.mp hc with h1 | h2
    · rcases renderInt_chars _ c h1 with h | h
      · left; exact h
      · right; left; exact h
    · simp only [List.mem_cons, List.not_mem_nil, or_false] at h2
      rcases h2 with rfl | rfl
      · right; right; rfl
      · left; decide
  · rcases List.mem_append.mp hc with h1 | h2
    · split at h1
      · simp only [List.mem_singleton] at h1
        right; left; exact h1
      · simp at h1
    · rcases List.mem_append.mp h2 with h3 | h4
      · left; exact renderNat_digits _ _ h3
      · simp only [List.mem_cons] at h4
        rcases h4 with rfl | h5
        · right; right; rfl
        · rcases List.mem_append.mp h5 with h6 | h7
          · rw [List.mem_replicate] at h6
            left; rw [h6.2]; decide
          · left; exact renderNat_digits _ _ h7

theorem strip_renderDec (d : Dec) : strip (renderDec d) = renderDec d :=
  strip_eq_self (by
    intro c hc
    rcases renderDec_chars d c hc with h | h | h
    · exact isWS_false_of_isDigit h
    · subst h; decide
    · subst h; decide)

theorem pyFloat_normalized {l : List Char} {d : Dec} (h : pyFloat l = some d) :
    d.e = 0 ∨ ¬ d.m % 10 = 0 := by
  unfold pyFloat pyFloatBody at h
  split at h
  · exact absurd h (by simp)
  · split at h
    · split at h
      · rw [Option.some.injEq] at h
        subst h
        exact normalize_norm _ _
      · exact absurd h (by simp)
    · exact absurd h (by simp)

theorem pyFloat_sgn_token (pre : List Char) (sg : ℤ) (ip fp : List Char)
    (M : ℕ) (hpre : (pre = ['-'] ∧ sg = -1) ∨ (pre = [] ∧ sg = 1))
    (hip : ∀ c ∈ ip, c.isDigit = true) (hfp : ∀ c ∈ fp, c.isDigit = true)
    (hne : ip ≠ [])
    (hstrip : strip (pre ++ (ip ++ '.' :: fp)) = pre ++ (ip ++ '.' :: fp))
    (hval : (natVal ip : ℤ) * (10 : ℤ) ^ fp.length + (natVal fp : ℤ) = (M : ℤ)) :
    pyFloat (pre ++ (ip ++ '.' :: fp)) =
      some (Dec.normalize (sg * (M : ℤ)) fp.length) := by
  unfold pyFloat
  rw [hstrip]
  rcases hpre with ⟨hp, hs⟩ | ⟨hp, hs⟩ <;> subst hp <;> subst hs
  · rw [List.singleton_append]
    have hsgn : pyFloatSign ('-' :: (ip ++ '.' :: fp)) =
        ((-1 : ℤ), ip ++ '.' :: fp) := by
      rw [pyFloatSign_cons, if_pos rfl]
    simp only [hsgn]
    rw [pyFloatBody_shape (-1) ip fp hip hfp hne, hval]
  · rw [List.nil_append]
    obtain ⟨c0, t0, hct⟩ : ∃ c0 t0, ip = c0 :: t0 := by
      cases ip with
      | nil => exact absurd rfl hne
      | cons a b => exact ⟨a, b, rfl⟩
    have hc0 : c0.isDigit = true :=
      hip c0 (by rw [hct]; exact List.mem_cons_self _ _)
    have hsgn : pyFloatSign (ip ++ '.' :: fp) = ((1 : ℤ), ip ++ '.' :: fp) := by
      rw [hct, List.cons_append, pyFloatSign_cons, if_neg, if_neg,
        ← List.cons_append]
      · rintro rfl; exact absurd hc0 (by decide)
      · rintro rfl; exact absurd hc0 (by decide)
    simp only [hsgn]
    rw [pyFloatBody_shape 1 ip fp hip hfp hne, hval]

theorem pyFloat_renderDec (d : Dec) (hnorm : d.e = 0 ∨ ¬ d.m % 10 = 0) :
    pyFloat (renderDec d) = some d := by
  obtain ⟨m, e⟩ := d
  cases e with
  | zero =>
    have htok : renderDec ⟨m, 0⟩ =
        (if m < 0 then ['-'] else []) ++ (renderNat m.natAbs ++ '.' :: ['0']) := by
      unfold renderDec
      rw [if_pos rfl, renderInt_eq, List.append_assoc]
    have hstrip : strip ((if m < 0 then ['-'] else []) ++
        (renderNat m.natAbs ++ '.' :: ['0'])) =
        (if m < 0 then ['-'] else []) ++ (renderNat m.natAbs ++ '.' :: ['0']) := by
      rw [← htok]
      exact strip_renderDec _
    have hfp : ∀ c ∈ (['0'] : List Char), c.isDigit = true := by
      intro c hc
      simp only [List.mem_singleton] at hc
      subst hc
      decide
    have hval : (natVal (renderNat m.natAbs) : ℤ) *
        (10 : ℤ) ^ (['0'] : List Char).length + (natVal ['0'] : ℤ) =
        ((10 * m.natAbs : ℕ) : ℤ) := by
      rw [natVal_renderNat, show natVal ['0'] = 0 from by decide,
        show (['0'] : List Char).length = 1 from rfl]
      push_cast
      ring
    rw [htok]
    by_cases hm : m < 0
    · rw [show (if m < 0 then ['-'] else ([] : List Char)) = ['-'] from if_pos hm] at hstrip ⊢
      rw [pyFloat_sgn_token ['-'] (-1) _ _ (10 * m.natAbs) (Or.inl ⟨rfl, rfl⟩)
        (renderNat_digits _) hfp (renderNat_ne_nil _) hstrip hval]
      rw [show (-1 : ℤ) * ((10 * m.natAbs : ℕ) : ℤ) = 10 * m from by
        push_cast
        rw [abs_of_neg hm]
        ring]
      rw [show (['0'] : List Char).length = 1 from rfl, norm_ten]
    · rw [show (if m < 0 then ['-'] else ([] : List Char)) = [] from if_neg hm] at hstrip ⊢
      rw [pyFloat_sgn_token [] 1 _ _ (10 * m.natAbs) (Or.inr ⟨rfl, rfl⟩)
        (renderNat_digits _) hfp (renderNat_ne_nil _) hstrip hval]
      rw [show (1 : ℤ) * ((10 * m.natAbs : ℕ) : ℤ) = 10 * m from by
        push_cast
        rw [abs_of_nonneg (show (0 : ℤ) ≤ m by omega)]
        ring]
      rw [show (['0'] : List Char).length = 1 from rfl, norm_ten]
  | succ e2 =>
    have hm10 : ¬ m % 10 = 0 := by
      rcases hnorm with h0 | h0
      · exact absurd h0 (by simp)
      · exact h0
    have hpow : 0 < 10 ^ (e2 + 1) := Nat.pos_pow_of_pos _ (by norm_num)
    have hmodlt : m.natAbs % 10 ^ (e2 + 1) < 10 ^ (e2 + 1) := Nat.mod_lt _ hpow
    have hlen : (renderNat (m.natAbs % 10 ^ (e2 + 1))).length ≤ e2 + 1 :=
      renderNat_length_le hmodlt (by omega)
    have hfp : ∀ c ∈ List.replicate
        ((e2 + 1) - (renderNat (m.natAbs % 10 ^ (e2 + 1))).length) '0' ++
        renderNat (m.natAbs % 10 ^ (e2 + 1)), c.isDigit = true := by
      intro c hc
      rcases List.mem_append.mp hc with h6 | h7
      · rw [List.mem_replicate] at h6
        rw [h6.2]
        decide
      · exact renderNat_digits _ _ h7
    have hfplen : (List.replicate
        ((e2 + 1) - (renderNat (m.natAbs % 10 ^ (e2 + 1))).length) '0' ++
        renderNat (m.natAbs % 10 ^ (e2 + 1))).length = e2 + 1 := by
      rw [List.length_append, List.length_replicate]
      omega
    have hval : (natVal (renderNat (m.natAbs / 10 ^ (e2 + 1))) : ℤ) *
        (10 : ℤ) ^ (List.replicate
            ((e2 + 1) - (renderNat (m.natAbs % 10 ^ (e2 + 1))).length) '0' ++
          renderNat (m.natAbs % 10 ^ (e2 + 1))).length +
        (natVal (List.replicate
            ((e2 + 1) - (renderNat (m.natAbs % 10 ^ (e2 + 1))).length) '0' ++
          renderNat (m.natAbs % 10 ^ (e2 + 1))) : ℤ) = (m.natAbs : ℤ) := by
      rw [natVal_renderNat, hfplen, natVal_replicate_zero, natVal_renderNat]
      have hnn : (m.natAbs / 10 ^ (e2 + 1)) * 10 ^ (e2 + 1) +
          m.natAbs % 10 ^ (e2 + 1) = m.natAbs := by
        rw [Nat.mul_comm]
        exact Nat.div_add_mod m.natAbs (10 ^ (e2 + 1))
      exact_mod_cast hnn
    have htok : renderDec ⟨m, e2 + 1⟩ =
        (if m < 0 then ['-'] else []) ++
          (renderNat (m.natAbs / 10 ^ (e2 + 1)) ++
            '.' :: (List.replicate
                ((e2 + 1) - (renderNat (m.natAbs % 10 ^ (e2 + 1))).length) '0' ++
              renderNat (m.natAbs % 10 ^ (e2 + 1)))) := by
      unfold renderDec
      rw [if_neg (by simp)]
    have hstrip : strip ((if m < 0 then ['-'] else []) ++
        (renderNat (m.natAbs / 10 ^ (e2 + 1)) ++
          '.' :: (List.replicate
              ((e2 + 1) - (renderNat (m.natAbs % 10 ^ (e2 + 1))).length) '0' ++
            renderNat (m.natAbs % 10 ^ (e2 + 1))))) =
        (if m < 0 then ['-'] else []) ++
          (renderNat (m.natAbs / 10 ^ (e2 + 1)) ++
            '.' :: (List.replicate
                ((e2 + 1) - (renderNat (m.natAbs % 10 ^ (e2 + 1))).length) '0' ++
              renderNat (m.natAbs % 10 ^ (e2 + 1)))) := by
      rw [← htok]
      exact strip_renderDec _
    rw [htok]
    by_cases hm : m < 0
    · rw [show (if m < 0 then ['-'] else ([] : List Char)) = ['-'] from if_pos hm] at hstrip ⊢
      rw [pyFloat_sgn_token ['-'] (-1) _ _ m.natAbs (Or.inl ⟨rfl, rfl⟩)
        (renderNat_digits _) hfp (renderNat_ne_nil _) hstrip hval]
      rw [show (-1 : ℤ) * ((m.natAbs : ℕ) : ℤ) = m from by
        rw [Int.ofNat_natAbs_of_nonpos (le_of_lt hm)]
        ring]
      rw [hfplen, normalize_id (Or.inr hm10)]
    · rw [show (if m < 0 then ['-'] else ([] : List Char)) = [] from if_neg hm] at hstrip ⊢
      rw [pyFloat_sgn_token [] 1 _ _ m.natAbs (Or.inr ⟨rfl, rfl⟩)
        (renderNat_digits _) hfp (renderNat_ne_nil _) hstrip hval]
      rw [show (1 : ℤ) * ((m.natAbs : ℕ) : ℤ) = m from by
        rw [Int.natAbs_of_nonneg (by omega)]
        ring]
      rw [hfplen, normalize_id (Or.inr hm10)]


theorem renderDec_dot (d : Dec) : '.' ∈ renderDec d := by
  unfold renderDec
  split
  · exact List.mem_append_right _ (by simp)
  · exact List.mem_append_right _ (List.mem_append_right _ (by simp))

theorem renderInt_ne_nil (n : ℤ) : renderInt n ≠ [] := by
  rw [renderInt_eq]
  intro h
  exact renderNat_ne_nil n.natAbs (List.append_eq_nil.mp h).2

theorem renderInt_ne_true (n : ℤ) : renderInt n ≠ trueTok := by
  intro h
  have hmem : 't' ∈ renderInt n := by rw [h]; decide
  rcases renderInt_chars n 't' hmem with h1 | h1
  · exact absurd h1 (by decide)
  · exact absurd h1 (by decide)

theorem renderInt_ne_false (n : ℤ) : renderInt n ≠ falseTok := by
  intro h
  have hmem : 'f' ∈ renderInt n := by rw [h]; decide
  rcases renderInt_chars n 'f' hmem with h1 | h1
  · exact absurd h1 (by decide)
  · exact absurd h1 (by decide)

theorem renderInt_not_quote (n : ℤ) : containsCh (renderInt n) '"' = false :=
  containsCh_eq_false (by
    intro hmem
    rcases renderInt_chars n '"' hmem with h1 | h1
    · exact absurd h1 (by decide)
    · exact absurd h1 (by decide))

theorem renderInt_not_dot (n : ℤ) : containsCh (renderInt n) '.' = false :=
  containsCh_eq_false (by
    intro hmem
    rcases renderInt_chars n '.' hmem with h1 | h1
    · exact absurd h1 (by decide)
    · exact absurd h1 (by decide))

theorem renderDec_ne_nil (d : Dec) : renderDec d ≠ [] := by
  intro h
  have := renderDec_dot d
  rw [h] at this
  simp at this

theorem renderDec_ne_true (d : Dec) : renderDec d ≠ trueTok := by
  intro h
  have := renderDec_dot d
  rw [h] at this
  exact absurd this (by decide)

theorem renderDec_ne_false (d : Dec) : renderDec d ≠ falseTok := by
  intro h
  have := renderDec_dot d
  rw [h] at this
  exact absurd this (by decide)

theorem renderDec_not_quote (d : Dec) : containsCh (renderDec d) '"' = false :=
  containsCh_eq_false (by
    intro hmem
    rcases renderDec_chars d '"' hmem with h1 | h1 | h1
    · exact absurd h1 (by decide)
    · exact absurd h1 (by decide)
    · exact absurd h1 (by decide))

theorem renderDec_has_dot (d : Dec) : containsCh (renderDec d) '.' = true :=
  (containsCh_iff _ _).mpr (renderDec_dot d)

theorem cdt_renderInt (n : ℤ) : change_data_type (renderInt n) = .ok (.pyint n) := by
  have hq : ¬ containsCh (renderInt n) '"' = true := by
    rw [renderInt_not_quote]
    simp
  have hd : ¬ containsCh (renderInt n) '.' = true := by
    rw [renderInt_not_dot]
    simp
  unfold change_data_type
  rw [if_neg (renderInt_ne_nil n), if_neg (renderInt_ne_true n),
    if_neg (renderInt_ne_false n), if_neg hq, if_neg hd, pyInt_renderInt]

theorem cdt_renderDec (d : Dec) (hnorm : d.e = 0 ∨ ¬ d.m % 10 = 0) :
    change_data_type (renderDec d) = .ok (.pyfloat d) := by
  have hq : ¬ containsCh (renderDec d) '"' = true := by
    rw [renderDec_not_quote]
    simp
  unfold change_data_type
  rw [if_neg (renderDec_ne_nil d), if_neg (renderDec_ne_true d),
    if_neg (renderDec_ne_false d), if_neg hq, if_pos (renderDec_has_dot d),
    pyFloat_renderDec d hnorm]

/-- C6: Type Coercion is idempotent on canonical string forms: for every
scalar value in the range of `change_data_type`, coercing the canonical
string form of that value yields the value back, for all five scalar
kinds (the empty sentinel, booleans, quoted strings kept verbatim,
floats, and integers). -/
theorem c6_coercion_idempotent :
    ∀ (t : List Char) (v : Value), change_data_type t = .ok v →
      change_data_type (canonicalString v) = .ok v := by
  intro t v h
  unfold change_data_type at h
  split at h
  · rw [Except.ok.injEq] at h
    subst h
    rfl
  · split at h
    · rw [Except.ok.injEq] at h
      subst h
      rfl
    · split at h
      · rw [Except.ok.injEq] at h
        subst h
        rfl
      · split at h
        · rename_i h0 h1 h2 hq
          rw [Except.ok.injEq] at h
          subst h
          show change_data_type t = .ok (.pystr t)
          unfold change_data_type
          rw [if_neg h0, if_neg h1, if_neg h2, if_pos hq]
        · split at h
          · split at h
            · rename_i dd hpf
              rw [Except.ok.injEq] at h
              subst h
              exact cdt_renderDec dd (pyFloat_normalized hpf)
            · exact absurd h (by simp)
          · split at h
            · rename_i nn hpi
              rw [Except.ok.injEq] at h
              subst h
              exact cdt_renderInt nn
            · exact absurd h (by simp)

/-- Witness for C6 at the spec's example: the float written 3.5. -/
theorem c6_witness :
    change_data_type (canonicalString (.pyfloat ⟨35, 1⟩)) =
      .ok (.pyfloat ⟨35, 1⟩) :=
  c6_coercion_idempotent ['3', '.', '5'] (.pyfloat ⟨35, 1⟩) rfl

end DST
